import Mathlib

/-!
Verification of the `myenv-store` content-addressed package store
(`crates/myenv-store/src/lib.rs`).

The development shallowly embeds the store as pure functions over an explicit
filesystem state.  SHA-256 (the `sha2` crate's `Sha256`) is implemented
concretely over byte lists so that all digests are computable by the kernel.
-/

namespace Nursery

/-! ## SHA-256 over byte lists

A byte is a `Nat` below 256; a digest is the lowercase-hex string the Rust code
obtains from `format!("\x7b:x\x7d", hasher.finalize())`. -/

/-- Truncate to a 32-bit word. -/
def w32 (x : Nat) : Nat := x % 4294967296

/-- Rotate a 32-bit word right by `n` bits. -/
def rotr (n x : Nat) : Nat := w32 ((x >>> n) ||| (x <<< (32 - n)))

/-- Bitwise complement of a 32-bit word. -/
def wnot (x : Nat) : Nat := x ^^^ 4294967295

/-- SHA-256 round-constant table. -/
def shaK : List Nat :=
  [1116352408, 1899447441, 3049323471, 3921009573, 961987163,
   1508970993, 2453635748, 2870763221, 3624381080, 310598401,
   607225278, 1426881987, 1925078388, 2162078206, 2614888103,
   3248222580, 3835390401, 4022224774, 264347078, 604807628,
   770255983, 1249150122, 1555081692, 1996064986, 2554220882,
   2821834349, 2952996808, 3210313671, 3336571891, 3584528711,
   113926993, 338241895, 666307205, 773529912, 1294757372,
   1396182291, 1695183700, 1986661051, 2177026350, 2456956037,
   2730485921, 2820302411, 3259730800, 3345764771, 3516065817,
   3600352804, 4094571909, 275423344, 430227734, 506948616,
   659060556, 883997877, 958139571, 1322822218, 1537002063,
   1747873779, 1955562222, 2024104815, 2227730452, 2361852424,
   2428436474, 2756734187, 3204031479, 3329325298]

/-- SHA-256 initial state. -/
def shaH0 : List Nat :=
  [1779033703, 3144134277, 1013904242,
   2773480762, 1359893119, 2600822924,
   528734635, 1541459225]

/-- Big-endian 8-byte encoding of a natural number (the message bit length). -/
def be64 (n : Nat) : List Nat :=
  [(n >>> 56) % 256, (n >>> 48) % 256, (n >>> 40) % 256, (n >>> 32) % 256,
   (n >>> 24) % 256, (n >>> 16) % 256, (n >>> 8) % 256, n % 256]

/-- SHA-256 padding: `0x80`, zeros to 56 mod 64, then the bit length. -/
def shaPad (msg : List Nat) : List Nat :=
  let l := msg.length
  let zeros := (64 + 56 - ((l + 1) % 64)) % 64
  msg ++ [0x80] ++ List.replicate zeros 0 ++ be64 (8 * l)

/-- Split a byte list into its 64-byte blocks. -/
def blocks64 (l : List Nat) : List (List Nat) :=
  (List.range (l.length / 64)).map (fun i => ((l.drop (64 * i)).take 64))

/-- Combine four bytes into one big-endian 32-bit word. -/
def word4 (a b c d : Nat) : Nat := ((a * 256 + b) * 256 + c) * 256 + d

/-- The sixteen initial schedule words of a 64-byte block. -/
def words16 (block : List Nat) : List Nat :=
  (List.range 16).map (fun i =>
    word4 (block.getD (4 * i) 0) (block.getD (4 * i + 1) 0)
      (block.getD (4 * i + 2) 0) (block.getD (4 * i + 3) 0))

/-- Extend the 16-word schedule to 64 words. -/
def extendW (ws : List Nat) : List Nat :=
  (List.range 48).foldl
    (fun ws _ =>
      let n := ws.length
      ws ++ [w32 ((rotr 17 (ws.getD (n - 2) 0) ^^^ rotr 19 (ws.getD (n - 2) 0) ^^^
                    ((ws.getD (n - 2) 0) >>> 10)) +
                  ws.getD (n - 7) 0 +
                  (rotr 7 (ws.getD (n - 15) 0) ^^^ rotr 18 (ws.getD (n - 15) 0) ^^^
                    ((ws.getD (n - 15) 0) >>> 3)) +
                  ws.getD (n - 16) 0)])
    ws

/-- One SHA-256 compression round. -/
def shaRound (st : List Nat) (k w : Nat) : List Nat :=
  let a := st.getD 0 0
  let b := st.getD 1 0
  let c := st.getD 2 0
  let d := st.getD 3 0
  let e := st.getD 4 0
  let f := st.getD 5 0
  let g := st.getD 6 0
  let h := st.getD 7 0
  let s1 := rotr 6 e ^^^ rotr 11 e ^^^ rotr 25 e
  let ch := (e &&& f) ^^^ (wnot e &&& g)
  let t1 := w32 (h + s1 + ch + k + w)
  let s0 := rotr 2 a ^^^ rotr 13 a ^^^ rotr 22 a
  let maj := (a &&& b) ^^^ (a &&& c) ^^^ (b &&& c)
  let t2 := w32 (s0 + maj)
  [w32 (t1 + t2), a, b, c, w32 (d + t1), e, f, g]

/-- Compress one 64-byte block into the running state. -/
def shaCompress (hs : List Nat) (block : List Nat) : List Nat :=
  let ws := extendW (words16 block)
  let fin := (List.range 64).foldl
    (fun st t => shaRound st (shaK.getD t 0) (ws.getD t 0)) hs
  (List.range 8).map (fun i => w32 (hs.getD i 0 + fin.getD i 0))

/-- Raw 32-byte SHA-256 digest of a byte list. -/
def sha256bytes (msg : List Nat) : List Nat :=
  let fin := (blocks64 (shaPad msg)).foldl shaCompress shaH0
  fin.foldr (fun w acc =>
    (w >>> 24) % 256 :: (w >>> 16) % 256 :: (w >>> 8) % 256 :: w % 256 :: acc) []

/-- Lowercase hex digit for a value below 16. -/
def hexChar (n : Nat) : Char :=
  "0123456789abcdef".toList.getD n '0'

/-- Lowercase hex string of a byte list, two digits per byte. -/
def hexOfBytes (bs : List Nat) : String :=
  String.mk (bs.foldr (fun b acc => hexChar (b / 16) :: hexChar (b % 16) :: acc) [])

/-- Lowercase-hex SHA-256 digest of a byte list, as the Rust
`format!("\x7b:x\x7d", hasher.finalize())` produces it. -/
def sha256hex (msg : List Nat) : String := hexOfBytes (sha256bytes msg)

/-- Embedding of `hash_bytes` (lib.rs 355-359): digest of the bytes. -/
def hash_bytes (bytes : List Nat) : String := sha256hex bytes

/-! ## Filesystem trees for the Hasher

`hash_path`/`hash_dir` walk a real directory tree.  The embedding represents a
node by its base-name bytes and, for files, the raw content bytes; the `mode`,
`mtime` and `owner` fields model the filesystem metadata that exists on disk
but that the hasher never reads. -/

/-- A filesystem node as the hasher observes it. -/
inductive FsNode where
  | file (contents : List Nat) (mode : Nat) (mtime : Nat) (owner : Nat)
  | dir (entries : List (List Nat × FsNode)) (mode : Nat) (mtime : Nat) (owner : Nat)

/-- Byte-wise lexicographic order on names, as comparing `OsStr` path
components compares their raw bytes on Unix. -/
def bytesLe : List Nat → List Nat → Bool
  | [], _ => true
  | _ :: _, [] => false
  | a :: as, b :: bs => if a < b then true else if b < a then false else bytesLe as bs

/-- Insert into a sorted list, before the first element with a `≥` key, so that
the resulting sort is stable. -/
def insertSorted {α : Type} (key : α → List Nat) (e : α) : List α → List α
  | [] => [e]
  | x :: xs => if bytesLe (key e) (key x) then e :: x :: xs else x :: insertSorted key e xs

/-- Stable insertion sort by a byte-list key.  `entries.sort_by_key(|e| e.path())`
in `hash_dir` is a stable sort, and within a single directory comparing paths
is comparing the entry names byte-wise, so any stable sort by name computes the
same list. -/
def sortByKey {α : Type} (key : α → List Nat) : List α → List α
  | [] => []
  | e :: es => insertSorted key e (sortByKey key es)

theorem sizeOf_insertSorted {α : Type} [SizeOf α] (key : α → List Nat) (e : α)
    (l : List α) : sizeOf (insertSorted key e l) = 1 + sizeOf e + sizeOf l := by
  induction l with
  | nil => simp [insertSorted]
  | cons x xs ih =>
    by_cases h : bytesLe (key e) (key x) <;> simp [insertSorted, h, ih] <;> omega

theorem sizeOf_sortByKey {α : Type} [SizeOf α] (key : α → List Nat) (l : List α) :
    sizeOf (sortByKey key l) = sizeOf l := by
  induction l with
  | nil => rfl
  | cons e es ih => simp [sortByKey, sizeOf_insertSorted, ih]

theorem mem_insertSorted {α : Type} (key : α → List Nat) (e x : α) (l : List α) :
    x ∈ insertSorted key e l ↔ x = e ∨ x ∈ l := by
  induction l with
  | nil => simp [insertSorted]
  | cons y ys ih =>
    by_cases h : bytesLe (key e) (key y) <;> simp [insertSorted, h, ih] <;> tauto

theorem mem_sortByKey {α : Type} (key : α → List Nat) (x : α) (l : List α) :
    x ∈ sortByKey key l ↔ x ∈ l := by
  induction l with
  | nil => simp [sortByKey]
  | cons e es ih => simp [sortByKey, mem_insertSorted, ih]

mutual

/-- Embedding of `hash_dir` (lib.rs 328-352) as the byte stream fed to the one
running `Sha256`: for a file the raw contents, for a directory the sorted
entries each contributing their name bytes followed by their own stream. -/
def nodeStream : FsNode → List Nat
  | .file c _ _ _ => c
  | .dir es _ _ _ => entryListStream (sortByKey Prod.fst es)
termination_by t => sizeOf t
decreasing_by simp [sizeOf_sortByKey]; omega

/-- Byte stream contributed by a list of (already sorted) directory entries. -/
def entryListStream : List (List Nat × FsNode) → List Nat
  | [] => []
  | (n, node) :: rest => n ++ nodeStream node ++ entryListStream rest
termination_by l => sizeOf l
decreasing_by all_goals (simp; try omega)

end

/-- Embedding of `hash_path` (lib.rs 305-325): a file is streamed through the
digest in 8 KiB chunks, which yields exactly the digest of its full contents; a
directory goes through `hash_dir`.  The result is the lowercase hex digest. -/
def hash_path (t : FsNode) : String := sha256hex (nodeStream t)

mutual

/-- Modelled from the spec sentence behind C1 (spec.md section 4.1): the digest
of a file is the digest of its contents; the digest of a directory folds, over
the entries sorted by name, the entry name bytes followed by that entry's own
32 raw digest bytes into a fresh digest. -/
def specEntryDigest : FsNode → List Nat
  | .file c _ _ _ => sha256bytes c
  | .dir es _ _ _ => sha256bytes (specListStream (sortByKey Prod.fst es))
termination_by t => sizeOf t
decreasing_by simp [sizeOf_sortByKey]; omega

/-- Merkle-style stream over sorted entries: name bytes then per-entry digest. -/
def specListStream : List (List Nat × FsNode) → List Nat
  | [] => []
  | (n, node) :: rest => n ++ specEntryDigest node ++ specListStream rest
termination_by l => sizeOf l
decreasing_by all_goals (simp; try omega)

end

/-- Digest of a path under the spec's (Merkle-style) directory rule. -/
def spec_hash_path (t : FsNode) : String := hexOfBytes (specEntryDigest t)

/-- Concatenate `name ++ stream` over a list of named streams. -/
def flattenNamed : List (List Nat × List Nat) → List Nat
  | [] => []
  | (n, s) :: rest => n ++ s ++ flattenNamed rest

mutual

/-- The amended directory rule stated independently of `nodeStream`: compute
each entry's flat stream first, then sort the named streams by name and
concatenate `name ++ stream`. -/
def nodeStreamA : FsNode → List Nat
  | .file c _ _ _ => c
  | .dir es _ _ _ => flattenNamed (sortByKey Prod.fst (entryStreams es))
termination_by t => sizeOf t
decreasing_by simp; omega

/-- Named flat streams of a list of entries, in the given order. -/
def entryStreams : List (List Nat × FsNode) → List (List Nat × List Nat)
  | [] => []
  | (n, node) :: rest => (n, nodeStreamA node) :: entryStreams rest
termination_by l => sizeOf l
decreasing_by all_goals (simp; try omega)

end

mutual

/-- Erase every metadata field of a tree, keeping entry names, their order and
file contents: the projection of a tree that `hash_dir` can observe. -/
def stripMeta : FsNode → FsNode
  | .file c _ _ _ => .file c 0 0 0
  | .dir es _ _ _ => .dir (stripEntries es) 0 0 0
termination_by t => sizeOf t

/-- Metadata erasure on entry lists. -/
def stripEntries : List (List Nat × FsNode) → List (List Nat × FsNode)
  | [] => []
  | (n, node) :: rest => (n, stripMeta node) :: stripEntries rest
termination_by l => sizeOf l

end

/-! ## Equations relating the three directory-stream formulations -/

theorem sizeOf_node_of_mem (n : List Nat) (node : FsNode)
    (l : List (List Nat × FsNode)) (h : (n, node) ∈ l) : sizeOf node < sizeOf l := by
  induction l with
  | nil => simp at h
  | cons x xs ih =>
    rcases List.mem_cons.mp h with h | h
    · cases h; simp; omega
    · have := ih h; simp; omega

theorem map_insertSorted {α β : Type} (key : α → List Nat) (key2 : β → List Nat)
    (f : α → β) (hk : ∀ a, key2 (f a) = key a) (e : α) (l : List α) :
    (insertSorted key e l).map f = insertSorted key2 (f e) (l.map f) := by
  induction l with
  | nil => simp [insertSorted]
  | cons x xs ih =>
    simp only [insertSorted, List.map_cons, hk]
    by_cases h : bytesLe (key e) (key x) <;> simp [h, ih]

theorem map_sortByKey {α β : Type} (key : α → List Nat) (key2 : β → List Nat)
    (f : α → β) (hk : ∀ a, key2 (f a) = key a) (l : List α) :
    (sortByKey key l).map f = sortByKey key2 (l.map f) := by
  induction l with
  | nil => rfl
  | cons e es ih => simp [sortByKey, map_insertSorted key key2 f hk, ih]

theorem entryListStream_eq_flatten (l : List (List Nat × FsNode)) :
    entryListStream l = flattenNamed (l.map (fun e => (e.1, nodeStream e.2))) := by
  induction l with
  | nil => simp [entryListStream, flattenNamed]
  | cons e rest ih =>
    cases e with
    | mk n node => simp [entryListStream, flattenNamed, ih]

theorem entryStreams_eq_map (l : List (List Nat × FsNode))
    (h : ∀ p ∈ l, nodeStream p.2 = nodeStreamA p.2) :
    entryStreams l = l.map (fun e => (e.1, nodeStream e.2)) := by
  induction l with
  | nil => simp [entryStreams]
  | cons e rest ih =>
    cases e with
    | mk n node =>
      simp only [entryStreams, List.map_cons]
      rw [← h (n, node) (by simp), ih (fun p hp => h p (List.mem_cons_of_mem _ hp))]

theorem nodeStream_eq_aux (N : Nat) :
    ∀ t : FsNode, sizeOf t ≤ N → nodeStream t = nodeStreamA t := by
  induction N with
  | zero =>
    intro t h
    cases t <;> simp at h
  | succ N ih =>
    intro t h
    cases t with
    | file c m mt o => simp [nodeStream, nodeStreamA]
    | dir es m mt o =>
      have hes : sizeOf es ≤ N := by simp at h; omega
      have hel : ∀ p ∈ es, nodeStream p.2 = nodeStreamA p.2 := by
        intro p hp
        have hlt : sizeOf p.2 < sizeOf es := by
          cases p with
          | mk n node => exact sizeOf_node_of_mem n node es hp
        exact ih p.2 (by omega)
      simp only [nodeStream, nodeStreamA]
      rw [entryListStream_eq_flatten,
        map_sortByKey Prod.fst Prod.fst (fun e => (e.1, nodeStream e.2)) (fun a => rfl) es,
        entryStreams_eq_map es hel]

theorem nodeStream_eq_nodeStreamA (t : FsNode) : nodeStream t = nodeStreamA t :=
  nodeStream_eq_aux (sizeOf t) t (Nat.le_refl _)

theorem stripEntries_eq_map (l : List (List Nat × FsNode)) :
    stripEntries l = l.map (fun e => (e.1, stripMeta e.2)) := by
  induction l with
  | nil => simp [stripEntries]
  | cons e rest ih =>
    cases e with
    | mk n node => simp [stripEntries, ih]

theorem entryListStream_map_strip (l : List (List Nat × FsNode))
    (h : ∀ p ∈ l, nodeStream (stripMeta p.2) = nodeStream p.2) :
    entryListStream (l.map (fun e => (e.1, stripMeta e.2))) = entryListStream l := by
  induction l with
  | nil => simp [entryListStream]
  | cons e rest ih =>
    cases e with
    | mk n node =>
      simp only [List.map_cons, entryListStream]
      rw [h (n, node) (by simp), ih (fun p hp => h p (List.mem_cons_of_mem _ hp))]

theorem nodeStream_strip_aux (N : Nat) :
    ∀ t : FsNode, sizeOf t ≤ N → nodeStream (stripMeta t) = nodeStream t := by
  induction N with
  | zero =>
    intro t h
    cases t <;> simp at h
  | succ N ih =>
    intro t h
    cases t with
    | file c m mt o => simp [stripMeta, nodeStream]
    | dir es m mt o =>
      have hes : sizeOf es ≤ N := by simp at h; omega
      have hel : ∀ p ∈ sortByKey Prod.fst es,
          nodeStream (stripMeta p.2) = nodeStream p.2 := by
        intro p hp
        have hmem : p ∈ es := (mem_sortByKey Prod.fst p es).mp hp
        have hlt : sizeOf p.2 < sizeOf es := by
          cases p with
          | mk n node => exact sizeOf_node_of_mem n node es hmem
        exact ih p.2 (by omega)
      simp only [stripMeta, nodeStream]
      rw [stripEntries_eq_map,
        ← map_sortByKey Prod.fst Prod.fst (fun e => (e.1, stripMeta e.2)) (fun a => rfl) es,
        entryListStream_map_strip _ hel]

theorem nodeStream_stripMeta (t : FsNode) : nodeStream (stripMeta t) = nodeStream t :=
  nodeStream_strip_aux (sizeOf t) t (Nat.le_refl _)

/-! ## Claims about the Hasher (C1, C8) -/

set_option maxRecDepth 1000000

/-- C1, counterexample: for the directory holding the single empty file `a`,
the digest `hash_path` computes (the digest of the flat stream, here just the
name byte `97`) differs from the digest prescribed by the claim (name bytes
followed by the entry's own 32-byte digest): `hash_dir` feeds the entry's raw
contents, not its digest, into the running hasher. -/
theorem C1_counterexample :
    hash_path (FsNode.dir [([97], FsNode.file [] 420 7 1)] 493 9 2) ≠
      spec_hash_path (FsNode.dir [([97], FsNode.file [] 420 7 1)] 493 9 2) := by
  have h1 : nodeStream (FsNode.dir [([97], FsNode.file [] 420 7 1)] 493 9 2) = [97] := by
    simp [nodeStream, entryListStream, sortByKey, insertSorted]
  have h2 : specEntryDigest (FsNode.dir [([97], FsNode.file [] 420 7 1)] 493 9 2) =
      sha256bytes ([97] ++ sha256bytes []) := by
    simp [specEntryDigest, specListStream, sortByKey, insertSorted]
  unfold hash_path spec_hash_path sha256hex
  rw [h1, h2]
  decide

/-- C1, amended: for every directory, the digest is computed by listing the
immediate entries, sorting them by name byte-wise, and feeding, for each entry,
the entry's name bytes and then the entry's raw contents (for a file) or,
recursively by the same rule, the flat stream of the subdirectory (for a
directory) into the one running digest; no per-entry 32-byte digest is ever
computed.  `nodeStreamA` states this rule independently (per-entry streams
first, then the stable sort by name, then concatenation of name-stream pairs),
and `hash_path` agrees with it on every tree. -/
theorem C1_amended_dir_hash (t : FsNode) : hash_path t = sha256hex (nodeStreamA t) := by
  unfold hash_path
  rw [nodeStream_eq_nodeStreamA]

/-- C8: hashing is deterministic and metadata-independent.  Hashing the same
bytes twice yields the same digest, and any two trees that agree after erasing
all filesystem metadata (modes including executability, mtimes, ownership) —
i.e. that have identical entry names and identical file byte contents — hash
to the same digest. -/
theorem C8_hash_deterministic :
    (∀ b : List Nat, hash_bytes b = hash_bytes b) ∧
    ∀ t1 t2 : FsNode, stripMeta t1 = stripMeta t2 → hash_path t1 = hash_path t2 := by
  refine ⟨fun b => rfl, fun t1 t2 h => ?_⟩
  unfold hash_path
  rw [← nodeStream_stripMeta t1, ← nodeStream_stripMeta t2, h]

/-- C8, witness: two concrete one-file trees agreeing on names and contents but
differing in every metadata field hash identically. -/
theorem C8_witness :
    stripMeta (FsNode.dir [([97], FsNode.file [98] 420 7 1)] 493 9 2) =
      stripMeta (FsNode.dir [([97], FsNode.file [98] 511 8 0)] 448 3 5) ∧
    hash_path (FsNode.dir [([97], FsNode.file [98] 420 7 1)] 493 9 2) =
      hash_path (FsNode.dir [([97], FsNode.file [98] 511 8 0)] 448 3 5) := by
  have h : stripMeta (FsNode.dir [([97], FsNode.file [98] 420 7 1)] 493 9 2) =
      stripMeta (FsNode.dir [([97], FsNode.file [98] 511 8 0)] 448 3 5) := by
    simp [stripMeta, stripEntries]
  exact ⟨h, C8_hash_deterministic.2 _ _ h⟩

/-! ## The Store

The store owns two directories: `store_dir` (one sub-directory per content
hash) and `bin_dir` (one symlink per activated binary name).  The state is the
contents of those two directories.  Package directories use `String` names as
the code does (`to_str`); a file carries its contents and its POSIX mode. -/

/-- A node inside a package directory. -/
inductive Node where
  | file (contents : List Nat) (mode : Nat)
  | dir (entries : List (String × Node))

/-- Contents of one directory: named children in listing order. -/
abbrev Entries := List (String × Node)

/-- Target of a symlink in the bin directory: the absolute path
`store_dir/<hash>/<sub...>` of some binary inside a package. -/
structure LinkTarget where
  hash : String
  sub : List String
deriving DecidableEq

/-- State of the two directories the `Store` owns. -/
structure StoreState where
  store : List (String × Entries)
  bin : List (String × LinkTarget)

/-- Embedding of `StoredPackage` (lib.rs 22-30).  Its `path` field is always
`store_dir/<hash>` for store-produced packages and is represented by `hash`. -/
structure StoredPackage where
  hash : String
  binaries : List String
deriving DecidableEq

/-- Embedding of `StoreError` (lib.rs 33-49). -/
inductive StoreErr where
  | createDir (msg : String)
  | readFile (msg : String)
  | writeFile (msg : String)
  | download (msg : String)
  | unpack (msg : String)
  | hashMismatch (expected actual : String)
  | notFound (msg : String)
deriving DecidableEq

/-- Child of a directory listing by name. -/
def childNode (es : Entries) (n : String) : Option Node :=
  (es.find? (fun p => p.1 == n)).map (fun p => p.2)

/-- Resolve a relative directory path below a package directory; `none` when a
component is missing or is a file (where `read_dir` would fail). -/
def dirAt (es : Entries) : List String → Option Entries
  | [] => some es
  | c :: cs =>
    match childNode es c with
    | some (Node.dir es2) => dirAt es2 cs
    | _ => none

/-- Resolve a non-empty relative path to the node it names, modelling
`Path::exists` on `pkg_path.join(...)`. -/
def nodeAt (es : Entries) : List String → Option Node
  | [] => none
  | [c] => childNode es c
  | c :: cs =>
    match childNode es c with
    | some (Node.dir es2) => nodeAt es2 cs
    | _ => none

/-- Embedding of `is_executable` (lib.rs 417-424, Unix): a regular file with
any of the `0o111` execute bits set. -/
def is_executable : Node → Bool
  | .file _ mode => mode &&& 0o111 != 0
  | .dir _ => false

/-- The fixed candidate directories of `find_binaries` (lib.rs 261-266):
package root, `bin`, `usr/bin`, `usr/local/bin`. -/
def searchDirs : List (List String) := [[], ["bin"], ["usr", "bin"], ["usr", "local", "bin"]]

/-- Append the executable direct children of one directory, skipping names
already collected. -/
def addExecs (acc : List String) (es : Entries) : List String :=
  es.foldl (fun a p => if is_executable p.2 && !(a.contains p.1) then a ++ [p.1] else a) acc

/-- Embedding of `find_binaries` (lib.rs 257-283): scan the four candidate
directories in order, collecting executable children, de-duplicated. -/
def find_binaries (es : Entries) : List String :=
  searchDirs.foldl
    (fun acc sp =>
      match dirAt es sp with
      | some children => addExecs acc children
      | none => acc)
    []

/-- The four candidate concrete paths of a binary (lib.rs 287-292). -/
def candidatePaths (n : String) : List (List String) :=
  [[n], ["bin", n], ["usr", "bin", n], ["usr", "local", "bin", n]]

/-- Embedding of `find_binary_path` (lib.rs 286-295): the first candidate path
that exists. -/
def find_binary_path (es : Entries) (n : String) : Option (List String) :=
  (candidatePaths n).find? (fun p => (nodeAt es p).isSome)

/-- Package-directory contents stored under a hash, when present. -/
def lookupStore (st : StoreState) (h : String) : Option Entries :=
  (st.store.find? (fun p => p.1 == h)).map (fun p => p.2)

/-- Embedding of `has` (lib.rs 90-92): `store_dir/<hash>` exists. -/
def has (st : StoreState) (h : String) : Bool :=
  (st.store.find? (fun p => p.1 == h)).isSome

/-- Embedding of `get` (lib.rs 95-107): when present, re-derive the binaries
and return the descriptor. -/
def get (st : StoreState) (h : String) : Option StoredPackage :=
  (lookupStore st h).map (fun es => ⟨h, find_binaries es⟩)

/-- Embedding of `list` (lib.rs 215-239): every sub-directory of the store
directory becomes a package with hash = directory name. -/
def listPackages (st : StoreState) : List StoredPackage :=
  st.store.map (fun p => ⟨p.1, find_binaries p.2⟩)

/-! The tar/gz, tar/xz and zip extractors live in external crates (`flate2`,
`xz2`, `tar`, `zip`); the store only dispatches to them.  They are therefore
parameters of the model: an extractor takes the bytes and the destination
directory contents and either returns the new destination contents or fails. -/

/-- External archive extractors, one per supported format. -/
structure Unpackers where
  gz : List Nat → Entries → Except String Entries
  xz : List Nat → Entries → Except String Entries
  zip : List Nat → Entries → Except String Entries

/-- Signature test for gzip (lib.rs 383): strictly more than 2 bytes beginning
`1F 8B`. -/
def gzipSig (bytes : List Nat) : Bool :=
  decide (2 < bytes.length) && (bytes.getD 0 0 == 0x1f) && (bytes.getD 1 0 == 0x8b)

/-- Signature test for xz (lib.rs 393): strictly more than 6 bytes beginning
`FD 37 7A 58 5A 00`. -/
def xzSig (bytes : List Nat) : Bool :=
  decide (6 < bytes.length) && (bytes.take 6 == [0xfd, 0x37, 0x7a, 0x58, 0x5a, 0x00])

/-- Signature test for zip (lib.rs 403): strictly more than 4 bytes beginning
`PK\x03\x04`. -/
def zipSig (bytes : List Nat) : Bool :=
  decide (4 < bytes.length) && (bytes.take 4 == [0x50, 0x4b, 0x03, 0x04])

/-- Embedding of `try_unpack_archive` (lib.rs 381-414): dispatch on the three
signatures in order (gzip, xz, zip); on no match, report `false` and leave the
destination untouched; an extractor failure becomes an `Unpack` error. -/
def try_unpack_archive (u : Unpackers) (bytes : List Nat) (dest : Entries) :
    Except StoreErr (Bool × Entries) :=
  if gzipSig bytes then
    match u.gz bytes dest with
    | .ok d => .ok (true, d)
    | .error e => .error (.unpack e)
  else if xzSig bytes then
    match u.xz bytes dest with
    | .ok d => .ok (true, d)
    | .error e => .error (.unpack e)
  else if zipSig bytes then
    match u.zip bytes dest with
    | .ok d => .ok (true, d)
    | .error e => .error (.unpack e)
  else
    .ok (false, dest)

/-- Write the raw bytes as the single file `bin` with permissions `0o755`
(lib.rs 156-164); `fs::write` replaces an existing `bin` entry. -/
def storeBin (bytes : List Nat) (dest : Entries) : Entries :=
  dest.filter (fun p => p.1 != "bin") ++ [("bin", Node.file bytes 0o755)]

/-- The body of `add_bytes` past the integrity gate (lib.rs 149-173): if the
hash directory exists the filesystem is untouched, otherwise the directory is
created, archive extraction is attempted, and non-archive bytes are written as
the executable file `bin`; the binaries are re-derived from the resulting
directory.  On an extractor failure the created directory remains (its
partially-extracted contents are not modelled). -/
def addBytesAt (u : Unpackers) (st : StoreState) (bytes : List Nat) (hash : String) :
    Except StoreErr StoredPackage × StoreState :=
  match lookupStore st hash with
  | some es => (.ok ⟨hash, find_binaries es⟩, st)
  | none =>
    match try_unpack_archive u bytes [] with
    | .error e => (.error e, { st with store := st.store ++ [(hash, [])] })
    | .ok (true, d) =>
      (.ok ⟨hash, find_binaries d⟩, { st with store := st.store ++ [(hash, d)] })
    | .ok (false, d) =>
      let d2 := storeBin bytes d
      (.ok ⟨hash, find_binaries d2⟩, { st with store := st.store ++ [(hash, d2)] })

/-- Embedding of `add_bytes` (lib.rs 133-174): hash the bytes; when an expected
hash was supplied and differs, fail with `HashMismatch` before touching the
filesystem; otherwise store the content under its hash. -/
def add_bytes (u : Unpackers) (st : StoreState) (bytes : List Nat)
    (expected : Option String) : Except StoreErr StoredPackage × StoreState :=
  let hash := hash_bytes bytes
  match expected with
  | some e =>
    if hash = e then addBytesAt u st bytes hash
    else (.error (.hashMismatch e hash), st)
  | none => addBytesAt u st bytes hash

/-- Loop of `activate` (lib.rs 180-198): for each binary name in order, resolve
its concrete path; when it resolves, remove any existing `bin_dir/<name>` link
and create a fresh one to the resolved path, recording the created link. -/
def activateLoop (es : Entries) (hash : String) :
    List String → List String → List (String × LinkTarget) →
    List String × List (String × LinkTarget)
  | [], acc, bin => (acc, bin)
  | n :: rest, acc, bin =>
    match find_binary_path es n with
    | some sub =>
      activateLoop es hash rest (acc ++ [n])
        (bin.filter (fun l => l.1 != n) ++ [(n, ⟨hash, sub⟩)])
    | none => activateLoop es hash rest acc bin

/-- Embedding of `activate` (lib.rs 177-201).  The package directory is looked
up under `pkg.hash` (for store-produced packages `pkg.path` is
`store_dir/<hash>`); returned link paths `bin_dir/<name>` are represented by
their names. -/
def activate (st : StoreState) (pkg : StoredPackage) : List String × StoreState :=
  let es := (lookupStore st pkg.hash).getD []
  let r := activateLoop es pkg.hash pkg.binaries [] st.bin
  (r.1, { st with bin := r.2 })

/-- Embedding of `deactivate` (lib.rs 204-212): remove `bin_dir/<name>` for
each of the package's binary names, tolerating absence; the symlink target is
never inspected. -/
def deactivate (st : StoreState) (pkg : StoredPackage) : StoreState :=
  { st with bin := st.bin.filter (fun l => !(pkg.binaries.contains l.1)) }

/-- Remove `store_dir/<hash>` recursively (`fs::remove_dir_all`). -/
def removeStoreDir (st : StoreState) (h : String) : StoreState :=
  { st with store := st.store.filter (fun p => p.1 != h) }

/-- Loop of `gc` (lib.rs 245-251) over the pre-computed package list. -/
def gcLoop (keep : List String) :
    List StoredPackage → List String × StoreState → List String × StoreState
  | [], acc => acc
  | pkg :: rest, (removed, s) =>
    if keep.contains pkg.hash then gcLoop keep rest (removed, s)
    else gcLoop keep rest (removed ++ [pkg.hash], removeStoreDir (deactivate s pkg) pkg.hash)

/-- Embedding of `gc` (lib.rs 242-254): deactivate and delete every listed
package whose hash is not in the keep set, returning the removed hashes. -/
def gc (st : StoreState) (keep : List String) : List String × StoreState :=
  gcLoop keep (listPackages st) ([], st)

/-- Trivial extractors for concrete witnesses: every recognized archive
extracts to the destination unchanged. -/
def noopUnpackers : Unpackers :=
  ⟨fun _ d => .ok d, fun _ d => .ok d, fun _ d => .ok d⟩

/-- The freshly-initialized store: both directories empty. -/
def emptyStore : StoreState := ⟨[], []⟩

/-! ## Helper lemmas about the store state -/

theorem find?_append_right {α : Type} (p : α → Bool) (l1 l2 : List α)
    (h : l1.find? p = none) : (l1 ++ l2).find? p = l2.find? p := by
  induction l1 with
  | nil => simp
  | cons x xs ih =>
    by_cases hx : p x
    · simp [List.find?_cons_of_pos, hx] at h
    · rw [List.cons_append, List.find?_cons_of_neg _ hx]
      rw [List.find?_cons_of_neg _ hx] at h
      exact ih h

theorem lookupStore_append_self (st : StoreState) (h : String) (d : Entries)
    (hnone : lookupStore st h = none) :
    lookupStore { st with store := st.store ++ [(h, d)] } h = some d := by
  unfold lookupStore at *
  have hf : st.store.find? (fun p => p.1 == h) = none := by
    cases hfind : st.store.find? (fun p => p.1 == h) <;> simp [hfind] at hnone ⊢
  simp [find?_append_right _ _ _ hf]

theorem has_eq_isSome (st : StoreState) (h : String) :
    has st h = (lookupStore st h).isSome := by
  unfold has lookupStore
  cases st.store.find? (fun p => p.1 == h) <;> simp

theorem addBytesAt_found (u : Unpackers) (st : StoreState) (b : List Nat) (h : String)
    (es : Entries) (hsome : lookupStore st h = some es) :
    addBytesAt u st b h = (.ok ⟨h, find_binaries es⟩, st) := by
  unfold addBytesAt
  rw [hsome]

theorem addBytesAt_cases (u : Unpackers) (st : StoreState) (b : List Nat) (h : String) :
    (∃ es, lookupStore st h = some es ∧
      addBytesAt u st b h = (.ok ⟨h, find_binaries es⟩, st)) ∨
    (lookupStore st h = none ∧
      ((∃ e, addBytesAt u st b h =
          (.error e, { st with store := st.store ++ [(h, [])] })) ∨
        (∃ d, addBytesAt u st b h =
          (.ok ⟨h, find_binaries d⟩, { st with store := st.store ++ [(h, d)] })))) := by
  cases hls : lookupStore st h with
  | some es => exact .inl ⟨es, rfl, addBytesAt_found u st b h es hls⟩
  | none =>
    refine .inr ⟨rfl, ?_⟩
    unfold addBytesAt
    rw [hls]
    cases htry : try_unpack_archive u b [] with
    | error e => exact .inl ⟨e, rfl⟩
    | ok p =>
      cases p with
      | mk flag d =>
        cases flag
        · exact .inr ⟨storeBin b d, rfl⟩
        · exact .inr ⟨d, rfl⟩

theorem countP_eq_zero_of_lookup_none (st : StoreState) (h : String)
    (hnone : lookupStore st h = none) :
    st.store.countP (fun p => p.1 == h) = 0 := by
  rw [List.countP_eq_zero]
  intro a ha
  unfold lookupStore at hnone
  cases hfind : st.store.find? (fun p => p.1 == h) with
  | some x => rw [hfind] at hnone; simp at hnone
  | none => exact List.find?_eq_none.mp hfind a ha

theorem countP_key_eq_one (l : List (String × Entries)) (h : String)
    (hnd : (l.map Prod.fst).Nodup) (hsome : (l.find? (fun p => p.1 == h)).isSome) :
    l.countP (fun p => p.1 == h) = 1 := by
  induction l with
  | nil => simp at hsome
  | cons x xs ih =>
    simp only [List.map_cons, List.nodup_cons] at hnd
    by_cases hx : x.1 == h
    · have hxh : x.1 = h := by simpa using hx
      have hz : xs.countP (fun p => p.1 == h) = 0 := by
        rw [List.countP_eq_zero]
        intro a ha hpa
        have hah : a.1 = h := by simpa using hpa
        exact hnd.1 (hxh ▸ hah ▸ List.mem_map_of_mem Prod.fst ha)
      rw [List.countP_cons]
      simp [hx, hz]
    · rw [List.countP_cons]
      simp only [List.find?_cons, hx] at hsome
      simp [hx, ih hnd.2 hsome]

/-! ## Claims about `add_bytes` (C2, C4, C5) -/

/-- C2: for every byte sequence and every expected hash differing from the
actual digest, `add_bytes` fails with a `HashMismatch` error naming both the
expected and actual digest, performs no state mutation, and in particular does
not create the content directory for the actual digest. -/
theorem C2_integrity_gate (u : Unpackers) (st : StoreState) (b : List Nat) (h : String)
    (hne : h ≠ hash_bytes b) :
    add_bytes u st b (some h) = (.error (.hashMismatch h (hash_bytes b)), st) ∧
    (has st (hash_bytes b) = false →
      has (add_bytes u st b (some h)).2 (hash_bytes b) = false) := by
  have hmain : add_bytes u st b (some h) = (.error (.hashMismatch h (hash_bytes b)), st) := by
    unfold add_bytes
    simp [Ne.symm hne]
  exact ⟨hmain, fun hh => by rw [hmain]; exact hh⟩

/-- C2, witness: adding the byte `97` with the wrong expected hash `deadbeef`
on the empty store fails with the mismatch error and creates nothing. -/
theorem C2_witness :
    "deadbeef" ≠ hash_bytes [97] ∧
    add_bytes noopUnpackers emptyStore [97] (some "deadbeef") =
      (.error (.hashMismatch "deadbeef" (hash_bytes [97])), emptyStore) ∧
    has (add_bytes noopUnpackers emptyStore [97] (some "deadbeef")).2
      (hash_bytes [97]) = false := by
  have hne : "deadbeef" ≠ hash_bytes [97] := by decide
  have h := C2_integrity_gate noopUnpackers emptyStore [97] "deadbeef" hne
  exact ⟨hne, h.1, h.2 rfl⟩

/-- C5: whenever `add_bytes(b, None)` succeeds with a package, that package's
hash is the digest of `b`, `has` reports it present, and `get` returns a
package with the same hash. -/
theorem C5_round_trip (u : Unpackers) (st : StoreState) (b : List Nat)
    (pkg : StoredPackage) (hok : (add_bytes u st b none).1 = .ok pkg) :
    pkg.hash = hash_bytes b ∧
    has (add_bytes u st b none).2 pkg.hash = true ∧
    ∃ q, get (add_bytes u st b none).2 pkg.hash = some q ∧ q.hash = pkg.hash := by
  have hab : add_bytes u st b none = addBytesAt u st b (hash_bytes b) := rfl
  rw [hab] at hok ⊢
  rcases addBytesAt_cases u st b (hash_bytes b) with
    ⟨es, hsome, heq⟩ | ⟨hnone, ⟨e, heq⟩ | ⟨d, heq⟩⟩
  · rw [heq] at hok ⊢
    simp only [Except.ok.injEq] at hok
    subst hok
    refine ⟨rfl, ?_, ⟨⟨hash_bytes b, find_binaries es⟩, ?_, rfl⟩⟩
    · rw [has_eq_isSome, hsome]; rfl
    · unfold get
      rw [hsome]
      rfl
  · rw [heq] at hok
    simp at hok
  · rw [heq] at hok ⊢
    simp only [Except.ok.injEq] at hok
    subst hok
    have hself := lookupStore_append_self st (hash_bytes b) d hnone
    refine ⟨rfl, ?_, ⟨⟨hash_bytes b, find_binaries d⟩, ?_, rfl⟩⟩
    · rw [has_eq_isSome, hself]; rfl
    · unfold get
      rw [hself]
      rfl

/-- C5, witness: adding the byte `97` to the empty store round-trips. -/
theorem C5_witness :
    (add_bytes noopUnpackers emptyStore [97] none).1 =
      .ok ⟨hash_bytes [97], ["bin"]⟩ ∧
    has (add_bytes noopUnpackers emptyStore [97] none).2 (hash_bytes [97]) = true ∧
    ∃ q, get (add_bytes noopUnpackers emptyStore [97] none).2 (hash_bytes [97]) =
      some q ∧ q.hash = hash_bytes [97] := by
  have hok : (add_bytes noopUnpackers emptyStore [97] none).1 =
      .ok ⟨hash_bytes [97], ["bin"]⟩ := rfl
  have h := C5_round_trip noopUnpackers emptyStore [97] ⟨hash_bytes [97], ["bin"]⟩ hok
  exact ⟨hok, h.2.1, h.2.2⟩

/-- C4: `add_bytes(b, None)` is idempotent: after two calls exactly one
directory exists under the resulting hash, the second call succeeds, and the
second call leaves the state of the first call untouched. -/
theorem C4_idempotent (u : Unpackers) (st : StoreState) (b : List Nat)
    (hnd : (st.store.map Prod.fst).Nodup) :
    (add_bytes u (add_bytes u st b none).2 b none).2 = (add_bytes u st b none).2 ∧
    (∃ pkg, (add_bytes u (add_bytes u st b none).2 b none).1 = .ok pkg) ∧
    (add_bytes u (add_bytes u st b none).2 b none).2.store.countP
      (fun p => p.1 == hash_bytes b) = 1 := by
  have hab : ∀ s, add_bytes u s b none = addBytesAt u s b (hash_bytes b) := fun s => rfl
  rw [hab, hab]
  rcases addBytesAt_cases u st b (hash_bytes b) with
    ⟨es, hsome, heq⟩ | ⟨hnone, ⟨e, heq⟩ | ⟨d, heq⟩⟩
  · rw [heq]
    have h2 := addBytesAt_found u st b (hash_bytes b) es hsome
    rw [h2]
    refine ⟨rfl, ⟨⟨hash_bytes b, find_binaries es⟩, rfl⟩, ?_⟩
    refine countP_key_eq_one st.store (hash_bytes b) hnd ?_
    unfold lookupStore at hsome
    cases hfind : st.store.find? (fun p => p.1 == hash_bytes b) <;>
      rw [hfind] at hsome <;> simp at hsome ⊢
  · rw [heq]
    have hself := lookupStore_append_self st (hash_bytes b) [] hnone
    have h2 := addBytesAt_found u _ b (hash_bytes b) [] hself
    rw [h2]
    refine ⟨rfl, ⟨⟨hash_bytes b, find_binaries []⟩, rfl⟩, ?_⟩
    rw [List.countP_append, countP_eq_zero_of_lookup_none st _ hnone]
    simp [List.countP_cons]
  · rw [heq]
    have hself := lookupStore_append_self st (hash_bytes b) d hnone
    have h2 := addBytesAt_found u _ b (hash_bytes b) d hself
    rw [h2]
    refine ⟨rfl, ⟨⟨hash_bytes b, find_binaries d⟩, rfl⟩, ?_⟩
    rw [List.countP_append, countP_eq_zero_of_lookup_none st _ hnone]
    simp [List.countP_cons]

/-- C4, witness: adding the byte `97` twice to the empty store. -/
theorem C4_witness :
    (add_bytes noopUnpackers
        (add_bytes noopUnpackers emptyStore [97] none).2 [97] none).2 =
      (add_bytes noopUnpackers emptyStore [97] none).2 ∧
    (∃ pkg, (add_bytes noopUnpackers
        (add_bytes noopUnpackers emptyStore [97] none).2 [97] none).1 = .ok pkg) ∧
    (add_bytes noopUnpackers
        (add_bytes noopUnpackers emptyStore [97] none).2 [97] none).2.store.countP
      (fun p => p.1 == hash_bytes [97]) = 1 :=
  C4_idempotent noopUnpackers emptyStore [97] (by simp [emptyStore])

/-- C9: a byte sequence that is exactly an archive signature and nothing more
(`1F 8B`, the 6 xz magic bytes, or the 4 zip magic bytes) is not treated as an
archive — each branch requires the input to be strictly longer than its
signature — and `add_bytes` stores such bytes as the single executable file
`bin`. -/
theorem C9_exact_signature (u : Unpackers) (st : StoreState) (b : List Nat)
    (hb : b = [0x1f, 0x8b] ∨ b = [0xfd, 0x37, 0x7a, 0x58, 0x5a, 0x00] ∨
      b = [0x50, 0x4b, 0x03, 0x04]) :
    (∀ dest, try_unpack_archive u b dest = .ok (false, dest)) ∧
    (lookupStore st (hash_bytes b) = none →
      (add_bytes u st b none).2.store =
        st.store ++ [(hash_bytes b, [("bin", Node.file b 0o755)])] ∧
      (add_bytes u st b none).1 = .ok ⟨hash_bytes b, ["bin"]⟩) := by
  have hfalse : ∀ dest, try_unpack_archive u b dest = .ok (false, dest) := by
    intro dest
    rcases hb with hb | hb | hb <;> subst hb <;> rfl
  refine ⟨hfalse, fun hnone => ?_⟩
  have hab : add_bytes u st b none = addBytesAt u st b (hash_bytes b) := rfl
  rw [hab]
  unfold addBytesAt
  rw [hnone, hfalse []]
  exact ⟨rfl, rfl⟩

/-- C9, witness: the two bytes `1F 8B` alone are stored as an opaque `bin`
file in the empty store, not unpacked. -/
theorem C9_witness :
    try_unpack_archive noopUnpackers [0x1f, 0x8b] [] = .ok (false, []) ∧
    (add_bytes noopUnpackers emptyStore [0x1f, 0x8b] none).2.store =
      [(hash_bytes [0x1f, 0x8b], [("bin", Node.file [0x1f, 0x8b] 0o755)])] := by
  have h := C9_exact_signature noopUnpackers emptyStore [0x1f, 0x8b] (.inl rfl)
  refine ⟨h.1 [], ?_⟩
  have h2 := (h.2 rfl).1
  simpa [emptyStore] using h2

/-! ## Claim C6: archive dispatch -/

theorem gzipSig_iff (b : List Nat) :
    gzipSig b = true ↔ b.take 2 = [0x1f, 0x8b] ∧ 2 < b.length := by
  cases b with
  | nil => simp [gzipSig]
  | cons a bs =>
    cases bs with
    | nil => simp [gzipSig]
    | cons c cs =>
      simp [gzipSig]
      tauto

theorem xzSig_iff (b : List Nat) :
    xzSig b = true ↔ b.take 6 = [0xfd, 0x37, 0x7a, 0x58, 0x5a, 0x00] ∧ 6 < b.length := by
  unfold xzSig
  simp [and_comm]

theorem zipSig_iff (b : List Nat) :
    zipSig b = true ↔ b.take 4 = [0x50, 0x4b, 0x03, 0x04] ∧ 4 < b.length := by
  unfold zipSig
  simp [and_comm]

/-- C6: classification is by leading-byte signature in the fixed order gzip,
xz, zip, each dispatching to the corresponding extractor when the input is
longer than its signature; with no match, `try_unpack_archive` performs no
extraction and returns `false` rather than an error, and `add_bytes` then
writes the bytes as the single file `bin` with POSIX mode `0o755`
(`rwxr-xr-x`). -/
theorem C6_archive_dispatch (u : Unpackers) (b : List Nat) (dest : Entries)
    (st : StoreState) :
    (b.take 2 = [0x1f, 0x8b] → 2 < b.length →
      try_unpack_archive u b dest =
        (match u.gz b dest with
          | .ok d => .ok (true, d)
          | .error e => .error (.unpack e))) ∧
    (¬(b.take 2 = [0x1f, 0x8b] ∧ 2 < b.length) →
      b.take 6 = [0xfd, 0x37, 0x7a, 0x58, 0x5a, 0x00] → 6 < b.length →
      try_unpack_archive u b dest =
        (match u.xz b dest with
          | .ok d => .ok (true, d)
          | .error e => .error (.unpack e))) ∧
    (¬(b.take 2 = [0x1f, 0x8b] ∧ 2 < b.length) →
      ¬(b.take 6 = [0xfd, 0x37, 0x7a, 0x58, 0x5a, 0x00] ∧ 6 < b.length) →
      b.take 4 = [0x50, 0x4b, 0x03, 0x04] → 4 < b.length →
      try_unpack_archive u b dest =
        (match u.zip b dest with
          | .ok d => .ok (true, d)
          | .error e => .error (.unpack e))) ∧
    (¬(b.take 2 = [0x1f, 0x8b] ∧ 2 < b.length) →
      ¬(b.take 6 = [0xfd, 0x37, 0x7a, 0x58, 0x5a, 0x00] ∧ 6 < b.length) →
      ¬(b.take 4 = [0x50, 0x4b, 0x03, 0x04] ∧ 4 < b.length) →
      try_unpack_archive u b dest = .ok (false, dest)) ∧
    (try_unpack_archive u b [] = .ok (false, []) →
      lookupStore st (hash_bytes b) = none →
      (add_bytes u st b none).2.store =
        st.store ++ [(hash_bytes b, [("bin", Node.file b 0o755)])] ∧
      (add_bytes u st b none).1 =
        .ok ⟨hash_bytes b, find_binaries [("bin", Node.file b 0o755)]⟩) := by
  refine ⟨?_, ?_, ?_, ?_, ?_⟩
  · intro h1 h2
    unfold try_unpack_archive
    rw [if_pos ((gzipSig_iff b).mpr ⟨h1, h2⟩)]
  · intro hn1 h1 h2
    unfold try_unpack_archive
    rw [if_neg (fun hc => hn1 ((gzipSig_iff b).mp hc)),
      if_pos ((xzSig_iff b).mpr ⟨h1, h2⟩)]
  · intro hn1 hn2 h1 h2
    unfold try_unpack_archive
    rw [if_neg (fun hc => hn1 ((gzipSig_iff b).mp hc)),
      if_neg (fun hc => hn2 ((xzSig_iff b).mp hc)),
      if_pos ((zipSig_iff b).mpr ⟨h1, h2⟩)]
  · intro hn1 hn2 hn3
    unfold try_unpack_archive
    rw [if_neg (fun hc => hn1 ((gzipSig_iff b).mp hc)),
      if_neg (fun hc => hn2 ((xzSig_iff b).mp hc)),
      if_neg (fun hc => hn3 ((zipSig_iff b).mp hc))]
  · intro hfalse hnone
    have hab : add_bytes u st b none = addBytesAt u st b (hash_bytes b) := rfl
    rw [hab]
    unfold addBytesAt
    rw [hnone, hfalse]
    exact ⟨rfl, rfl⟩

/-- C6, witness: the bytes `[9, 9, 9]` match no signature, are not extracted,
and are stored as the single executable file `bin`. -/
theorem C6_witness :
    try_unpack_archive noopUnpackers [9, 9, 9] [] = .ok (false, []) ∧
    (add_bytes noopUnpackers emptyStore [9, 9, 9] none).2.store =
      [(hash_bytes [9, 9, 9], [("bin", Node.file [9, 9, 9] 0o755)])] ∧
    find_binaries [("bin", Node.file [9, 9, 9] 0o755)] = ["bin"] := by
  have h := C6_archive_dispatch noopUnpackers [9, 9, 9] [] emptyStore
  have h4 := h.2.2.2.1 (by decide) (by decide) (by decide)
  have h5 := (h.2.2.2.2 h4 rfl).1
  exact ⟨h4, by simpa [emptyStore] using h5, rfl⟩

/-! ## Claim C7: activation -/

theorem activateLoop_spec (es : Entries) (h : String) (names : List String)
    (acc : List String) (bin : List (String × LinkTarget)) (hnd : names.Nodup) :
    activateLoop es h names acc bin =
      (acc ++ names.filter (fun n => (find_binary_path es n).isSome),
        bin.filter (fun l =>
            !((names.filter (fun n => (find_binary_path es n).isSome)).contains l.1)) ++
          (names.filter (fun n => (find_binary_path es n).isSome)).map
            (fun n => (n, ⟨h, (find_binary_path es n).getD []⟩))) := by
  induction names generalizing acc bin with
  | nil => simp [activateLoop]
  | cons n rest ih =>
    rw [List.nodup_cons] at hnd
    cases hfb : find_binary_path es n with
    | none =>
      simp only [activateLoop, hfb]
      rw [ih acc bin hnd.2]
      simp [List.filter_cons, hfb]
    | some sub =>
      simp only [activateLoop, hfb]
      rw [ih _ _ hnd.2]
      have hnotin : ((rest.filter
          (fun m => (find_binary_path es m).isSome)).contains n) = false := by
        rw [List.contains_eq_any_beq, List.any_eq_false]
        intro m hm hbm
        have hmn : n = m := by simpa using hbm
        exact hnd.1 (hmn ▸ List.mem_of_mem_filter hm)
      have hfcons : List.filter (fun m => (find_binary_path es m).isSome) (n :: rest) =
          n :: List.filter (fun m => (find_binary_path es m).isSome) rest := by
        rw [List.filter_cons_of_pos]
        simp [hfb]
      rw [hfcons]
      simp only [Prod.mk.injEq]
      refine ⟨?_, ?_⟩
      · rw [List.append_assoc]
        rfl
      rw [List.filter_append, List.filter_filter]
      have hkeep : List.filter (fun l =>
          !((rest.filter (fun m => (find_binary_path es m).isSome)).contains l.1))
            [(n, (⟨h, sub⟩ : LinkTarget))] = [(n, ⟨h, sub⟩)] := by
        simp [List.filter_cons, hnd.1]
      rw [hkeep]
      simp only [List.map_cons, hfb, Option.getD_some]
      rw [List.append_assoc]
      congr 1
      apply List.filter_congr
      intro l hl
      rw [List.contains_cons, Bool.not_or, Bool.and_comm]
      rfl

/-- C7: `activate` creates, for each binary name whose concrete path resolves
through the four candidate locations checked in order (package root, `bin`,
`usr/bin`, `usr/local/bin`), a link `bin_dir/<name>` to the resolved path,
replacing any pre-existing entry of that name; unresolvable names are silently
skipped; the returned list is exactly the created link names; the content area
is untouched. -/
theorem C7_activate (st : StoreState) (pkg : StoredPackage)
    (hnd : pkg.binaries.Nodup) :
    (activate st pkg).1 =
      pkg.binaries.filter
        (fun n => (find_binary_path ((lookupStore st pkg.hash).getD []) n).isSome) ∧
    (activate st pkg).2.store = st.store ∧
    (activate st pkg).2.bin =
      st.bin.filter (fun l =>
          !((pkg.binaries.filter
            (fun n => (find_binary_path ((lookupStore st pkg.hash).getD []) n).isSome)).contains
              l.1)) ++
        (pkg.binaries.filter
          (fun n => (find_binary_path ((lookupStore st pkg.hash).getD []) n).isSome)).map
          (fun n =>
            (n, ⟨pkg.hash,
              (find_binary_path ((lookupStore st pkg.hash).getD []) n).getD []⟩)) ∧
    ∀ (es : Entries) (n : String), find_binary_path es n =
      (if (nodeAt es [n]).isSome then some [n]
        else if (nodeAt es ["bin", n]).isSome then some ["bin", n]
        else if (nodeAt es ["usr", "bin", n]).isSome then some ["usr", "bin", n]
        else if (nodeAt es ["usr", "local", "bin", n]).isSome then
          some ["usr", "local", "bin", n]
        else none) := by
  have hspec := activateLoop_spec ((lookupStore st pkg.hash).getD []) pkg.hash
    pkg.binaries [] st.bin hnd
  have hact : activate st pkg =
      ((activateLoop ((lookupStore st pkg.hash).getD []) pkg.hash pkg.binaries [] st.bin).1,
        { st with
          bin := (activateLoop ((lookupStore st pkg.hash).getD []) pkg.hash
            pkg.binaries [] st.bin).2 }) := rfl
  rw [hact, hspec]
  refine ⟨by simp, rfl, by simp, ?_⟩
  intro es n
  unfold find_binary_path candidatePaths
  cases h1 : (nodeAt es [n]).isSome <;>
    cases h2 : (nodeAt es ["bin", n]).isSome <;>
      cases h3 : (nodeAt es ["usr", "bin", n]).isSome <;>
        cases h4 : (nodeAt es ["usr", "local", "bin", n]).isSome <;>
          simp [List.find?_cons, h1, h2, h3, h4]

/-- C7, witness: a package exposing `tool` at its root and naming a `missing`
binary: `tool` is linked (replacing a stale link of the same name), `missing`
is silently skipped, and the created-links list is exactly `[tool]`. -/
theorem C7_witness :
    ([("tool" : String), "missing"]).Nodup ∧
    (activate
        ⟨[("h1", [("tool", Node.file [1] 0o755)])], [("tool", ⟨"old", []⟩)]⟩
        ⟨"h1", ["tool", "missing"]⟩).1 = ["tool"] ∧
    (activate
        ⟨[("h1", [("tool", Node.file [1] 0o755)])], [("tool", ⟨"old", []⟩)]⟩
        ⟨"h1", ["tool", "missing"]⟩).2.bin = [("tool", ⟨"h1", ["tool"]⟩)] := by
  have hnd : ([("tool" : String), "missing"]).Nodup := by decide
  have h := C7_activate
    ⟨[("h1", [("tool", Node.file [1] 0o755)])], [("tool", ⟨"old", []⟩)]⟩
    ⟨"h1", ["tool", "missing"]⟩ hnd
  exact ⟨hnd, by rw [h.1]; rfl, by rw [h.2.2.1]; rfl⟩

/-! ## Claims C3 and C10: garbage collection -/

theorem mem_of_contains_true {a : String} {l : List String}
    (h : l.contains a = true) : a ∈ l := List.elem_iff.mp h

theorem not_mem_of_contains_false {a : String} {l : List String}
    (h : l.contains a = false) : a ∉ l := by
  intro hm
  have h2 : l.contains a = true := List.elem_iff.mpr hm
  rw [h2] at h
  cases h

theorem gcLoop_spec (keep : List String) (pkgs : List StoredPackage)
    (acc : List String) (s : StoreState) :
    gcLoop keep pkgs (acc, s) =
      (acc ++ (pkgs.filter (fun p => !(keep.contains p.hash))).map (fun p => p.hash),
        { store := s.store.filter (fun e =>
            !(((pkgs.filter (fun p => !(keep.contains p.hash))).map
              (fun p => p.hash)).contains e.1)),
          bin := s.bin.filter (fun l =>
            !((pkgs.filter (fun p => !(keep.contains p.hash))).any
              (fun p => p.binaries.contains l.1))) }) := by
  induction pkgs generalizing acc s with
  | nil => simp [gcLoop]
  | cons pkg rest ih =>
    by_cases hk : keep.contains pkg.hash = true
    · have hmem : pkg.hash ∈ keep := mem_of_contains_true hk
      simp only [gcLoop]
      rw [if_pos hk, ih]
      have hfcons : List.filter (fun p => !(keep.contains p.hash)) (pkg :: rest) =
          List.filter (fun p => !(keep.contains p.hash)) rest := by
        rw [List.filter_cons_of_neg]
        rw [hk]
        decide
      rw [hfcons]
    · have hkf : keep.contains pkg.hash = false := by
        cases hkk : keep.contains pkg.hash
        · rfl
        · exact absurd hkk hk
      have hnmem : pkg.hash ∉ keep := not_mem_of_contains_false hkf
      simp only [gcLoop]
      rw [if_neg hk, ih]
      have hfcons : List.filter (fun p => !(keep.contains p.hash)) (pkg :: rest) =
          pkg :: List.filter (fun p => !(keep.contains p.hash)) rest := by
        rw [List.filter_cons_of_pos]
        simp [hnmem]
      rw [hfcons]
      simp only [Prod.mk.injEq, StoreState.mk.injEq, List.map_cons]
      refine ⟨?_, ?_, ?_⟩
      · rw [List.append_assoc]
        rfl
      · show ((s.store.filter (fun p => p.1 != pkg.hash)).filter _) = _
        rw [List.filter_filter]
        apply List.filter_congr
        intro e he
        rw [List.contains_cons, Bool.not_or, Bool.and_comm]
        rfl
      · show ((s.bin.filter (fun l => !(pkg.binaries.contains l.1))).filter _) = _
        rw [List.filter_filter]
        apply List.filter_congr
        intro l hl
        rw [List.any_cons, Bool.not_or, Bool.and_comm]

theorem removed_hashes_eq (keep : List String) (l : List (String × Entries)) :
    ((l.map (fun p => (⟨p.1, find_binaries p.2⟩ : StoredPackage))).filter
        (fun p => !(keep.contains p.hash))).map (fun p => p.hash) =
      (l.map Prod.fst).filter (fun h => !(keep.contains h)) := by
  induction l with
  | nil => rfl
  | cons x xs ih =>
    simp only [List.map_cons, List.filter_cons]
    by_cases hk : keep.contains x.1 = true
    · have hcond : ¬((!(keep.contains x.1)) = true) := by
        rw [hk]
        decide
      rw [if_neg hcond, if_neg hcond, ih]
    · have hf : keep.contains x.1 = false := by
        cases hkk : keep.contains x.1
        · rfl
        · exact absurd hkk hk
      have hcond : (!(keep.contains x.1)) = true := by
        rw [hf]
        rfl
      rw [if_pos hcond, if_pos hcond, List.map_cons, ih]

theorem any_filter_comm {α : Type} (p q : α → Bool) (l : List α) :
    (l.filter p).any q = l.any (fun a => p a && q a) := by
  induction l with
  | nil => rfl
  | cons x xs ih =>
    rw [List.filter_cons]
    by_cases hp : p x = true
    · rw [if_pos hp, List.any_cons, List.any_cons, ih, hp]
      rfl
    · have hpf : p x = false := by
        cases hpp : p x
        · rfl
        · exact absurd hpp hp
      rw [if_neg hp, List.any_cons, ih, hpf]
      rfl

theorem find?_isSome_filter (l : List (String × Entries)) (keepP : String → Bool)
    (h : String) (hk : keepP h = true)
    (hs : (l.find? (fun p => p.1 == h)).isSome = true) :
    ((l.filter (fun e => keepP e.1)).find? (fun p => p.1 == h)).isSome = true := by
  induction l with
  | nil => simp at hs
  | cons x xs ih =>
    rw [List.filter_cons]
    by_cases hx : (x.1 == h) = true
    · have hxh : x.1 = h := by simpa using hx
      have hcond : keepP x.1 = true := by
        rw [hxh]
        exact hk
      rw [if_pos hcond, List.find?_cons, hx]
      rfl
    · have hxf : (x.1 == h) = false := by
        cases hxx : x.1 == h
        · rfl
        · exact absurd hxx hx
      have hs2 : (xs.find? (fun p => p.1 == h)).isSome = true := by
        rw [List.find?_cons, hxf] at hs
        exact hs
      by_cases hkx : keepP x.1 = true
      · rw [if_pos hkx, List.find?_cons, hxf]
        exact ih hs2
      · rw [if_neg hkx]
        exact ih hs2

theorem find?_filter_none (l : List (String × Entries)) (keepP : String → Bool)
    (h : String) (hk : keepP h = false) :
    (l.filter (fun e => keepP e.1)).find? (fun p => p.1 == h) = none := by
  rw [List.find?_eq_none]
  intro x hx hbx
  have hxh : x.1 = h := by simpa using hbx
  have hmem := (List.mem_filter.mp hx).2
  rw [hxh, hk] at hmem
  cases hmem

theorem gc_store_eq (st : StoreState) (keep : List String) :
    (gc st keep).2.store = st.store.filter (fun e => keep.contains e.1) := by
  have hrem : ((listPackages st).filter (fun p => !(keep.contains p.hash))).map
      (fun p => p.hash) =
      (st.store.map Prod.fst).filter (fun h => !(keep.contains h)) :=
    removed_hashes_eq keep st.store
  have hgc : gc st keep = gcLoop keep (listPackages st) ([], st) := rfl
  rw [hgc, gcLoop_spec]
  show st.store.filter _ = _
  rw [hrem]
  apply List.filter_congr
  intro e he
  cases hk : keep.contains e.1
  · have hin : e.1 ∈ (st.store.map Prod.fst).filter (fun h => !(keep.contains h)) := by
      rw [List.mem_filter]
      exact ⟨List.mem_map_of_mem Prod.fst he, by rw [hk]; rfl⟩
    have hct : ((st.store.map Prod.fst).filter
        (fun h => !(keep.contains h))).contains e.1 = true :=
      List.elem_iff.mpr hin
    rw [hct]
    rfl
  · have hout : e.1 ∉ (st.store.map Prod.fst).filter (fun h => !(keep.contains h)) := by
      rw [List.mem_filter]
      rintro ⟨-, hbad⟩
      rw [hk] at hbad
      cases hbad
    have hcf : ((st.store.map Prod.fst).filter
        (fun h => !(keep.contains h))).contains e.1 = false := by
      cases hc : ((st.store.map Prod.fst).filter
          (fun h => !(keep.contains h))).contains e.1
      · rfl
      · exact absurd (mem_of_contains_true hc) hout
    rw [hcf]
    rfl

theorem gc_bin_eq (st : StoreState) (keep : List String) :
    (gc st keep).2.bin = st.bin.filter (fun l =>
      !((listPackages st).any
        (fun p => !(keep.contains p.hash) && p.binaries.contains l.1))) := by
  have hgc : gc st keep = gcLoop keep (listPackages st) ([], st) := rfl
  rw [hgc, gcLoop_spec]
  show st.bin.filter _ = _
  apply List.filter_congr
  intro l hl
  rw [any_filter_comm]

theorem gc_removed_eq (st : StoreState) (keep : List String) :
    (gc st keep).1 = (st.store.map Prod.fst).filter (fun h => !(keep.contains h)) := by
  have hrem : ((listPackages st).filter (fun p => !(keep.contains p.hash))).map
      (fun p => p.hash) =
      (st.store.map Prod.fst).filter (fun h => !(keep.contains h)) :=
    removed_hashes_eq keep st.store
  have hgc : gc st keep = gcLoop keep (listPackages st) ([], st) := rfl
  rw [hgc, gcLoop_spec]
  show [] ++ _ = _
  rw [List.nil_append]
  exact hrem

/-- C3: `gc(keep)` deactivates and deletes exactly the listed packages whose
hash is not in the keep set: the returned list is exactly those hashes in
listing order, the content area afterwards holds exactly the kept entries
(untouched), the bin area loses exactly the links named by some removed
package's binaries, and afterwards `has` is true for every kept stored hash
and false for every removed one. -/
theorem C3_gc (st : StoreState) (keep : List String) :
    (gc st keep).1 = (st.store.map Prod.fst).filter (fun h => !(keep.contains h)) ∧
    (gc st keep).2.store = st.store.filter (fun e => keep.contains e.1) ∧
    (gc st keep).2.bin = st.bin.filter (fun l =>
      !((listPackages st).any
        (fun p => !(keep.contains p.hash) && p.binaries.contains l.1))) ∧
    (∀ h, keep.contains h = true → has st h = true → has (gc st keep).2 h = true) ∧
    (∀ h, ((gc st keep).1).contains h = true → has (gc st keep).2 h = false) := by
  refine ⟨gc_removed_eq st keep, gc_store_eq st keep, gc_bin_eq st keep, ?_, ?_⟩
  · intro h hk hh
    have hstep := find?_isSome_filter st.store (fun x => keep.contains x) h hk hh
    show (((gc st keep).2.store).find? (fun p => p.1 == h)).isSome = true
    rw [gc_store_eq st keep]
    exact hstep
  · intro h hc
    rw [gc_removed_eq st keep] at hc
    have hcm := mem_of_contains_true hc
    have hkf : keep.contains h = false := by
      have hbad := (List.mem_filter.mp hcm).2
      cases hkk : keep.contains h
      · rfl
      · rw [hkk] at hbad
        cases hbad
    show (((gc st keep).2.store).find? (fun p => p.1 == h)).isSome = false
    rw [gc_store_eq st keep,
      find?_filter_none st.store (fun x => keep.contains x) h hkf]
    rfl

/-- C3, witness: with packages `hA` and `hB` stored and a bin link into `hB`,
keeping only `hA` returns exactly `[hB]`, keeps `hA`, drops `hB`, and removes
the link that pointed into `hB`. -/
theorem C3_witness :
    (gc ⟨[("hA", [("a", Node.file [1] 0o755)]), ("hB", [("b", Node.file [2] 0o755)])],
        [("b", ⟨"hB", ["b"]⟩)]⟩ ["hA"]).1 = ["hB"] ∧
    has (gc ⟨[("hA", [("a", Node.file [1] 0o755)]), ("hB", [("b", Node.file [2] 0o755)])],
        [("b", ⟨"hB", ["b"]⟩)]⟩ ["hA"]).2 "hA" = true ∧
    has (gc ⟨[("hA", [("a", Node.file [1] 0o755)]), ("hB", [("b", Node.file [2] 0o755)])],
        [("b", ⟨"hB", ["b"]⟩)]⟩ ["hA"]).2 "hB" = false ∧
    (gc ⟨[("hA", [("a", Node.file [1] 0o755)]), ("hB", [("b", Node.file [2] 0o755)])],
        [("b", ⟨"hB", ["b"]⟩)]⟩ ["hA"]).2.bin = [] := by
  have h := C3_gc
    ⟨[("hA", [("a", Node.file [1] 0o755)]), ("hB", [("b", Node.file [2] 0o755)])],
      [("b", ⟨"hB", ["b"]⟩)]⟩ ["hA"]
  refine ⟨by rw [h.1]; rfl, h.2.2.2.1 "hA" rfl rfl, h.2.2.2.2 "hB" ?_, by rw [h.2.2.1]; rfl⟩
  rw [h.1]
  rfl

/-- C10: `deactivate` removes bin links purely by name, never inspecting the
link's target, so `gc` of a package removes every bin link whose name matches
one of that package's binary names — even a link currently pointing into a
different, kept package. -/
theorem C10_deactivate_by_name (st : StoreState) (keep : List String)
    (h : String) (es : Entries) (n : String) (t : LinkTarget)
    (hmem : (h, es) ∈ st.store) (hkeep : keep.contains h = false)
    (hbin : (find_binaries es).contains n = true) (hlink : (n, t) ∈ st.bin) :
    (∀ (st2 : StoreState) (pkg : StoredPackage) (l : String × LinkTarget),
      l ∈ (deactivate st2 pkg).bin ↔
        l ∈ st2.bin ∧ pkg.binaries.contains l.1 = false) ∧
    (n, t) ∉ (gc st keep).2.bin := by
  constructor
  · intro st2 pkg l
    unfold deactivate
    rw [List.mem_filter]
    constructor
    · rintro ⟨hm, hpred⟩
      refine ⟨hm, ?_⟩
      cases hcc : pkg.binaries.contains l.1
      · rfl
      · rw [hcc] at hpred
        cases hpred
    · rintro ⟨hm, hpred⟩
      exact ⟨hm, by rw [hpred]; rfl⟩
  · intro hin
    rw [gc_bin_eq st keep] at hin
    have hpred := (List.mem_filter.mp hin).2
    have hpkg : (⟨h, find_binaries es⟩ : StoredPackage) ∈ listPackages st := by
      unfold listPackages
      exact List.mem_map_of_mem _ hmem
    have hany : (listPackages st).any
        (fun p => !(keep.contains p.hash) && p.binaries.contains (n, t).1) = true := by
      rw [List.any_eq_true]
      exact ⟨⟨h, find_binaries es⟩, hpkg, by rw [hkeep, hbin]; rfl⟩
    rw [hany] at hpred
    cases hpred

/-- C10, witness: package `hA` exposes `tool`, and the bin link `tool`
currently points into the kept package `hB`; garbage-collecting with keep-set
`hB` still removes that link, because deactivation goes by name alone. -/
theorem C10_witness :
    ("hA", [("tool", Node.file [1] 0o755)]) ∈
      (⟨[("hA", [("tool", Node.file [1] 0o755)]),
          ("hB", [("tool", Node.file [2] 0o755)])],
        [("tool", ⟨"hB", ["tool"]⟩)]⟩ : StoreState).store ∧
    (["hB"] : List String).contains "hA" = false ∧
    (find_binaries [("tool", Node.file [1] 0o755)]).contains "tool" = true ∧
    ("tool", (⟨"hB", ["tool"]⟩ : LinkTarget)) ∈
      (⟨[("hA", [("tool", Node.file [1] 0o755)]),
          ("hB", [("tool", Node.file [2] 0o755)])],
        [("tool", ⟨"hB", ["tool"]⟩)]⟩ : StoreState).bin ∧
    ("tool", (⟨"hB", ["tool"]⟩ : LinkTarget)) ∉
      (gc (⟨[("hA", [("tool", Node.file [1] 0o755)]),
          ("hB", [("tool", Node.file [2] 0o755)])],
        [("tool", ⟨"hB", ["tool"]⟩)]⟩ : StoreState) ["hB"]).2.bin := by
  have hmem : ("hA", [("tool", Node.file [1] 0o755)]) ∈
      (⟨[("hA", [("tool", Node.file [1] 0o755)]),
          ("hB", [("tool", Node.file [2] 0o755)])],
        [("tool", ⟨"hB", ["tool"]⟩)]⟩ : StoreState).store :=
    List.mem_cons_self _ _
  have hlink : ("tool", (⟨"hB", ["tool"]⟩ : LinkTarget)) ∈
      (⟨[("hA", [("tool", Node.file [1] 0o755)]),
          ("hB", [("tool", Node.file [2] 0o755)])],
        [("tool", ⟨"hB", ["tool"]⟩)]⟩ : StoreState).bin :=
    List.mem_cons_self _ _
  exact ⟨hmem, rfl, rfl, hlink,
    (C10_deactivate_by_name _ ["hB"] "hA" [("tool", Node.file [1] 0o755)] "tool"
      ⟨"hB", ["tool"]⟩ hmem rfl rfl hlink).2⟩

end Nursery